import Mathlib

/-!
Verification of the Reed-Muller code module (`sage/coding/reed_muller_code.py`).

The development embeds the algebraic core of the module:

* a dense-list representation of univariate polynomials (the univariate Lagrange
  interpolation consumed by `_multivariate_polynomial_interpolation` via
  `uni_poly_ring.lagrange_polynomial`, an external collaborator, is modelled from
  its contract as the classical Lagrange formula);
* a nested dense representation `MPoly F m` of the multivariate polynomial ring
  `F[x0, ..., x_{m-1}]` (level `m+1` is the list of coefficients of powers of the
  last variable `x_m`, each a polynomial in the remaining variables);
* the grid enumeration used by both encoders (`Tuples(F.list(), m)`, first
  coordinate varying fastest), the evaluation encoder `encode`, the recursive
  interpolation `_multivariate_polynomial_interpolation`, the generator-matrix
  builder, the dimension/minimum-distance formulas and the constructor
  validation logic.

The finite field is an arbitrary `Field F` together with its enumeration list
`els` (Sage's `F.list()` together with the `first`/`next`/`last` walk, which
visits that list in order); completeness and distinctness of the enumeration are
explicit hypotheses.  Field inversion, needed only inside the Lagrange formula,
is implemented by searching the enumeration list, which keeps every definition
computable on concrete fields such as `ZMod 2` and `ZMod 3`.
-/

set_option linter.unusedSectionVars false

namespace RM

section Defs

variable {F : Type} [Field F] [DecidableEq F]

/-- Horner evaluation of a dense coefficient list (constant term first). -/
def evalU (l : List F) (t : F) : F := l.foldr (fun a acc => a + t * acc) 0

/-- Pointwise sum of two dense coefficient lists (the longer tail survives). -/
def addL : List F → List F → List F
  | [], ys => ys
  | xs, [] => xs
  | x :: xs, y :: ys => (x + y) :: addL xs ys

/-- Multiplication of a dense coefficient list by a scalar. -/
def scaleL (c : F) (l : List F) : List F := l.map (fun a => c * a)

/-- Multiplication of a dense coefficient list by the linear factor `X - r`. -/
def mulXsubC (r : F) (l : List F) : List F := addL (0 :: l) (scaleL (-r) l)

/-- Product of the linear factors `X - x` for `x` in `xs`, as a dense list. -/
def prodXsubC (xs : List F) : List F := xs.foldr mulXsubC [1]

/-- Zero-pad a dense coefficient list on the right to length at least `d`,
mirroring lines 114-117 of the source (which pad the Sage coefficient list of
the interpolated polynomial up to length `d`). -/
def padTo (d : ℕ) (l : List F) : List F := l ++ List.replicate (d - l.length) 0

/-- Field inversion implemented through the field enumeration list: the first
element whose product with `a` is `1` (the external field collaborator provides
exact inversion; searching the complete enumeration realises it computably). -/
def fieldInv (els : List F) (a : F) : F := ((els.find? fun b => a * b == 1).getD 0)

/-- Modelled from the spec: univariate Lagrange interpolation
(`uni_poly_ring.lagrange_polynomial`, an external collaborator of
`_multivariate_polynomial_interpolation`) returns the unique polynomial of
degree less than the number of points passing through the given points; this is
the classical formula `Σ_i y_i · Π_{j ≠ i} (X - x_j) / (x_i - x_j)` as a dense
coefficient list. -/
def lagrange (els : List F) (pts : List (F × F)) : List F :=
  ((List.range pts.length).map fun i =>
    scaleL ((pts.getD i (0, 0)).2 *
        fieldInv els ((((pts.map Prod.fst).eraseIdx i).map
          fun xj => (pts.map Prod.fst).getD i 0 - xj).prod))
      (prodXsubC ((pts.map Prod.fst).eraseIdx i))).foldr addL []

/-- Abstraction of a dense coefficient list into a Mathlib polynomial. -/
noncomputable def toP : List F → Polynomial F
  | [] => 0
  | a :: l => Polynomial.C a + Polynomial.X * toP l

/-- Nested dense representation of the multivariate polynomial ring
`F[x0, ..., x_{m-1}]`: a polynomial in `m + 1` variables is the list of
coefficients of the powers of the last variable `x_m`, each coefficient a
polynomial in the first `m` variables. -/
def MPoly (F : Type) : ℕ → Type
  | 0 => F
  | m + 1 => List (MPoly F m)

def mpolyDecEq (F : Type) [DecidableEq F] : (m : ℕ) → DecidableEq (MPoly F m)
  | 0 => inferInstanceAs (DecidableEq F)
  | m + 1 =>
    letI := mpolyDecEq F m
    inferInstanceAs (DecidableEq (List (MPoly F m)))

instance {F : Type} [DecidableEq F] {m : ℕ} : DecidableEq (MPoly F m) := mpolyDecEq F m

/-- The zero polynomial of the nested representation. -/
def zeroP : (m : ℕ) → MPoly F m
  | 0 => (0 : F)
  | _ + 1 => ([] : List (MPoly F _))

/-- The constant polynomial `c` of the nested representation. -/
def constP (c : F) : (m : ℕ) → MPoly F m
  | 0 => c
  | m + 1 => [constP c m]

/-- Semantic zero test: every nested coefficient is zero. -/
def isZeroP : {m : ℕ} → MPoly F m → Bool
  | 0, c => decide (c = (0 : F))
  | _ + 1, l => l.all fun P => isZeroP P

/-- The coefficient of the monomial with exponent vector `e` (variable `j` has
exponent `e j`; indices at or beyond `m` are ignored). -/
def coeffP : {m : ℕ} → MPoly F m → (ℕ → ℕ) → F
  | 0, c, _ => c
  | m + 1, l, e => coeffP (l.getD (e m) (zeroP m)) e

/-- Evaluation at the point whose `j`-th coordinate is `pt j`. -/
def evalMP : {m : ℕ} → MPoly F m → (ℕ → F) → F
  | 0, c, _ => c
  | m + 1, l, pt => evalU (l.map fun P => evalMP P pt) (pt m)

/-- Total degree with the Sage convention that the zero polynomial has degree
`-1` (`p.degree()` on a Sage multivariate polynomial is the total degree). -/
def totalDegP : {m : ℕ} → MPoly F m → ℤ
  | 0, c => if c = (0 : F) then -1 else 0
  | _ + 1, l =>
    (l.enum.map fun ck =>
      if isZeroP ck.2 then (-1 : ℤ) else (ck.1 : ℤ) + totalDegP ck.2).foldr max (-1)

/-- Decidable check that every variable has individual degree `< q` in `p`. -/
def varDegOK (q : ℕ) : {m : ℕ} → MPoly F m → Bool
  | 0, _ => true
  | _ + 1, l => ((l.drop q).all fun P => isZeroP P) && l.all fun P => varDegOK q P

/-- The point of the evaluation grid `F^m` with index `t`: the grid is
`Tuples(F.list(), m)` in the source, whose `t`-th element has `j`-th coordinate
`els[(t / q^j) % q]` (the first coordinate varies fastest, as fixed by the
doctests of `generator_matrix` and `encode`). -/
def gridPt (els : List F) (t : ℕ) : ℕ → F :=
  fun j => els.getD (t / els.length ^ j % els.length) 0

/-- The evaluation vector `[p(x) for x in base_fieldTuple]` of source line 797. -/
def evalVec (els : List F) (m : ℕ) (p : MPoly F m) : List F :=
  (List.range (els.length ^ m)).map fun t => evalMP p (gridPt els t)

inductive EncodeError where
  | wrongDomain
  | degreeTooHigh
deriving DecidableEq

/-- Source lines 786-797 after the domain membership test: reject a polynomial
whose total degree exceeds the order, otherwise evaluate on the whole grid. -/
def encodeP (els : List F) (ord m : ℕ) (p : MPoly F m) : Except EncodeError (List F) :=
  if totalDegP p > (ord : ℤ) then .error .degreeTooHigh else .ok (evalVec els m p)

/-- Full `encode` including the `p not in M` membership test of line 787: a
polynomial in the wrong number of variables is not an element of the message
space and is rejected (a polynomial over a different field is not expressible
against a fixed `F`; the variable-count half of the domain test is modelled). -/
def encodeChecked (els : List F) (ord m : ℕ) (pp : Σ k, MPoly F k) :
    Except EncodeError (List F) :=
  if h : pp.1 = m then encodeP els ord m (h ▸ pp.2) else .error .wrongDomain

def interp (els : List F) : (m : ℕ) → (ℕ → F) → ℕ → MPoly F m
  | 0, ev, _ => ev 0
  | m + 1, ev, ord =>
    if ord = 0 then constP (ev 0) (m + 1) else
    let q := els.length
    let n_by_q := q ^ m
    let d := min (ord + 1) q
    let multipointEvaluationList : List (List F) :=
      (List.range n_by_q).map fun k =>
        padTo d (lagrange els ((List.range d).map fun i =>
          (els.getD i 0, ev (k + i * n_by_q))))
    (List.range d).map fun kc =>
      interp els m (fun k2 => (multipointEvaluationList.getD k2 []).getD kc 0) (ord - kc)

/-- Top level `unencode_nocheck` (source lines 799-844): when the interpolation
hits its base case immediately (`num_of_var == 0 or order == 0`, line 96) the
bare field element `evaluation[0]` is returned instead of a member of the
polynomial ring; the sum type records which of the two happens. -/
def unencode_nocheck (els : List F) (m ord : ℕ) (c : ℕ → F) : F ⊕ MPoly F m :=
  if m = 0 ∨ ord = 0 then Sum.inl (c 0) else Sum.inr (interp els m c ord)

/-- View a level `m + 1` nested polynomial as the list of its coefficients. -/
@[reducible] def asList {m : ℕ} (l : MPoly F (m + 1)) : List (MPoly F m) := l

instance factPrime2 : Fact (Nat.Prime 2) := ⟨Nat.prime_two⟩

instance factPrime3 : Fact (Nat.Prime 3) := ⟨Nat.prime_three⟩

instance mpolyOfNat {F : Type} {n : ℕ} [OfNat F n] : OfNat (MPoly F 0) n :=
  ⟨(OfNat.ofNat n : F)⟩

/-- The enumeration of `GF(2)`. -/
def els2 : List (ZMod 2) := [0, 1]

/-- The enumeration of `GF(3)`. -/
def els3 : List (ZMod 3) := [0, 1, 2]

/-- The polynomial `1 + x0 + x1 + x1^2 + x0*x1` of the `encode` doctest
(source line 763), written as coefficients of powers of `x1`:
`(1 + x0) + (1 + x0)*x1 + 1*x1^2`. -/
def pC4 : MPoly (ZMod 3) 2 := [[1, 1], [1, 1], [1]]

/-- The polynomial `x0^2` over `GF(2)` in two variables: total degree `2`, so
it is accepted by `encode` for the binary Reed-Muller code of order 2. -/
def pSq : MPoly (ZMod 2) 2 := [[0, 0, 1]]

/-- The exponent vector of the monomial `x0^2`. -/
def eSq : ℕ → ℕ := fun j => if j = 0 then 2 else 0

/-- Modelled from the spec: all multiplicity vectors of length `m` with entries
at most `c`, in lexicographic order with variable `0` outermost. -/
def allVectors (m c : ℕ) : List (List ℕ) :=
  match m with
  | 0 => [[]]
  | m + 1 => (List.range (c + 1)).flatMap fun k => (allVectors m c).map fun v => k :: v

/-- Modelled from the spec: the Monomial Enumerator.  The source walks Sage's
`Subsets(range(num_of_var) * min(order, q - 1), submultiset=True)` through
`first()`/`next()`; the spec fixes only that the enumeration lists every
exponent multiset with the per-variable cap, grouped by ascending total degree
with a deterministic tie-break.  Modelled as the lexicographic vector list
stably sorted by total degree. -/
def expTuples (m c : ℕ) : List (List ℕ) :=
  (allVectors m c).mergeSort fun v w => decide (v.sum ≤ w.sum)

/-- Expansion of a multiplicity vector into the index multiset of Sage's
submultiset representation: variable `j0 + i` repeated `v i` times. -/
def toIdx (j0 : ℕ) : List ℕ → List ℕ
  | [] => []
  | k :: v => List.replicate k j0 ++ toIdx (j0 + 1) v

/-- Row entry of source line 618: `reduce(mul, [x[i] for i in exponent], 1)`. -/
def monomialEval {F : Type} [Field F] (pt : ℕ → F) (exponent : List ℕ) : F :=
  (exponent.map pt).foldl (fun a b => a * b) 1

/-- Generator matrix of `ReedMullerVectorEncoder.generator_matrix` (source
lines 587-620): one row per enumerated exponent multiset, stopping after
`dimension` rows, one column per grid point. -/
def generatorMatrix {F : Type} [Field F] (els : List F) (ord m dim : ℕ) :
    List (List F) :=
  ((expTuples m (min ord (els.length - 1))).take dim).map fun exponent =>
    (List.range (els.length ^ m)).map fun t =>
      monomialEval (gridPt els t) (toIdx 0 exponent)

/-- Iterative binomial partial sum of source lines 48-67: `s = 1; nCi = 1;
for i in range(k): nCi = (n - i) * nCi / (i + 1); s = nCi + s`, with the
division performed in `ℚ`, where Sage's exact Integer division lands. -/
def binomialSum (n k : ℕ) : ℚ :=
  ((List.range k).foldl (fun (p : ℚ × ℚ) (i : ℕ) =>
    (((((n : ℚ) - (i : ℚ)) * p.2) / ((i : ℚ) + 1)) + p.1,
      (((n : ℚ) - (i : ℚ)) * p.2) / ((i : ℚ) + 1)))
    ((1 : ℚ), (1 : ℚ))).1

/-- Dimension assigned by `QAryReedMullerCode.__init__` (source line 253):
`binomial(num_of_var + order, order)`. -/
def qaryDimension (r m : ℕ) : ℕ := Nat.choose (m + r) r

/-- Dimension assigned by `BinaryReedMullerCode.__init__` (source line 413). -/
def binaryDimension (r m : ℕ) : ℚ := binomialSum m r

/-- Code length `q ** num_of_var` passed to the linear-code container
(source lines 248 and 408). -/
def rmLength (q m : ℕ) : ℕ := q ^ m

/-- A Python value passed as a numeric constructor parameter: either a Sage
`Integer`, or some other object (such as the literal `1.1` of the doctests)
which fails the `isinstance(-, Integer)` test. -/
inductive PyParam where
  | int (z : ℤ)
  | nonInt
deriving DecidableEq

/-- The `ValueError` families raised by the two constructors (source lines
234-242 and 394-402); the base-field check belongs to the dispatcher. -/
inductive RMError where
  | orderNotInteger
  | numVarsNotInteger
  | orderTooLarge
deriving DecidableEq

/-- Input validation of `QAryReedMullerCode.__init__` (source lines 233-242):
`isinstance` checks for `order` and `num_of_var`, then the `order >= q` check;
on success construction proceeds with the two integers. -/
def qaryValidate (q : ℕ) (order numVars : PyParam) : Except RMError (ℤ × ℤ) :=
  match order with
  | .nonInt => .error .orderNotInteger
  | .int o =>
    match numVars with
    | .nonInt => .error .numVarsNotInteger
    | .int mv => if o ≥ (q : ℤ) then .error .orderTooLarge else .ok (o, mv)

/-- Input validation of `BinaryReedMullerCode.__init__` (source lines 394-402). -/
def binaryValidate (order numVars : PyParam) : Except RMError (ℤ × ℤ) :=
  match order with
  | .nonInt => .error .orderNotInteger
  | .int o =>
    match numVars with
    | .nonInt => .error .numVarsNotInteger
    | .int mv => if mv < o then .error .orderTooLarge else .ok (o, mv)

/-- The univariate polynomial `x` over `GF(3)`: one variable, not two. -/
def pUni : MPoly (ZMod 3) 1 := [0, 1]

/-- The polynomial `x0^10` over `GF(3)` in two variables: total degree 10. -/
def pDeg10 : MPoly (ZMod 3) 2 := [[0, 0, 0, 0, 0, 0, 0, 0, 0, 0, 1]]

/-- `QAryReedMullerCode.minimum_distance` (source lines 283-298):
`((q - d) * n) / q` in Sage's exact division, which lands in `ℚ`. -/
def qaryMinimumDistance (q r m : ℕ) : ℚ :=
  (((q : ℚ) - r) * ((rmLength q m : ℕ) : ℚ)) / q

/-- `BinaryReedMullerCode.minimum_distance` (source lines 439-449). -/
def binaryMinimumDistance (r m : ℕ) : ℕ := 2 ^ (m - r)

/-- A constructed Reed-Muller code object: the class it was built by together
with its stored parameters (`q` is the base-field cardinality). -/
inductive RMCode where
  | qary (q : ℕ) (order numVars : ℤ)
  | binary (order numVars : ℤ)
deriving DecidableEq

def rmBaseFieldCard : RMCode → ℕ
  | .qary q _ _ => q
  | .binary _ _ => 2

def rmOrder : RMCode → ℤ
  | .qary _ o _ => o
  | .binary o _ => o

def rmNumVars : RMCode → ℤ
  | .qary _ _ v => v
  | .binary _ v => v

def sameClass : RMCode → RMCode → Bool
  | .qary _ _ _, .qary _ _ _ => true
  | .binary _ _, .binary _ _ => true
  | _, _ => false

def rmEq : RMCode → RMCode → Bool
  | .qary q1 o1 v1, .qary q2 o2 v2 =>
    decide (q1 = q2) && decide (o1 = o2) && decide (v1 = v2)
  | .binary o1 v1, .binary o2 v2 => decide (o1 = o2) && decide (v1 = v2)
  | _, _ => false

end Defs

section Thms

variable {F : Type} [Field F] [DecidableEq F]

theorem toP_coeff (l : List F) (n : ℕ) : (toP l).coeff n = l.getD n 0 := by
  induction l generalizing n with
  | nil => simp [toP]
  | cons a l ih =>
    cases n with
    | zero => simp [toP]
    | succ n => simp [toP, Polynomial.coeff_X_mul, ih]

theorem toP_eval (l : List F) (t : F) : (toP l).eval t = evalU l t := by
  induction l with
  | nil => simp [toP, evalU]
  | cons a l ih => simp [toP, evalU, ih]

theorem toP_degree_lt (l : List F) : (toP l).degree < (l.length : ℕ) := by
  rw [Polynomial.degree_lt_iff_coeff_zero]
  intro m hm
  rw [toP_coeff]
  exact List.getD_eq_default _ _ hm

theorem toP_addL (a b : List F) : toP (addL a b) = toP a + toP b := by
  induction a generalizing b with
  | nil => simp [addL, toP]
  | cons x xs ih =>
    cases b with
    | nil => simp [addL, toP]
    | cons y ys => simp [addL, toP, ih]; ring

theorem toP_scaleL (c : F) (l : List F) : toP (scaleL c l) = Polynomial.C c * toP l := by
  induction l with
  | nil => simp [scaleL, toP]
  | cons a l ih => simp [scaleL, toP] at ih ⊢; rw [ih]; ring

theorem toP_consZero (l : List F) : toP ((0 : F) :: l) = Polynomial.X * toP l := by
  simp [toP]

theorem toP_mulXsubC (r : F) (l : List F) :
    toP (mulXsubC r l) = (Polynomial.X - Polynomial.C r) * toP l := by
  rw [mulXsubC, toP_addL, toP_consZero, toP_scaleL, map_neg]
  ring

theorem toP_prodXsubC (xs : List F) :
    toP (prodXsubC xs) = (xs.map fun x => Polynomial.X - Polynomial.C x).prod := by
  induction xs with
  | nil => simp [prodXsubC, toP]
  | cons x xs ih =>
    simp only [prodXsubC, List.foldr_cons, List.map_cons, List.prod_cons] at ih ⊢
    rw [toP_mulXsubC, ih]

theorem toP_append_zeros (l : List F) (n : ℕ) :
    toP (l ++ List.replicate n (0 : F)) = toP l := by
  induction l with
  | nil =>
    simp only [List.nil_append]
    induction n with
    | zero => simp [toP]
    | succ k ih => rw [List.replicate_succ, toP_consZero, ih]; simp [toP]
  | cons a l ih => simp only [List.cons_append, toP, List.append_eq, ih]

theorem toP_padTo (d : ℕ) (l : List F) : toP (padTo d l) = toP l := toP_append_zeros l _

theorem length_addL (a b : List F) : (addL a b).length = max a.length b.length := by
  induction a generalizing b with
  | nil => simp [addL]
  | cons x xs ih =>
    cases b with
    | nil => simp [addL]
    | cons y ys => simp [addL, ih]; omega

theorem length_scaleL (c : F) (l : List F) : (scaleL c l).length = l.length := by
  simp [scaleL]

theorem length_prodXsubC (xs : List F) : (prodXsubC xs).length = xs.length + 1 := by
  induction xs with
  | nil => simp [prodXsubC]
  | cons x xs ih =>
    simp [prodXsubC, mulXsubC, length_addL, length_scaleL] at ih ⊢
    omega

theorem length_foldr_addL_le (L : List (List F)) (n : ℕ) (h : ∀ l ∈ L, l.length ≤ n) :
    (L.foldr addL []).length ≤ n := by
  induction L with
  | nil => simp
  | cons l L ih =>
    simp only [List.foldr_cons, length_addL]
    have h1 := h l (by simp)
    have h2 := ih fun x hx => h x (by simp [hx])
    omega

theorem evalU_foldr_addL (L : List (List F)) (t : F) :
    evalU (L.foldr addL []) t = (L.map fun l => evalU l t).sum := by
  induction L with
  | nil => simp [evalU]
  | cons l L ih =>
    simp only [List.foldr_cons, List.map_cons, List.sum_cons, ← ih]
    rw [← toP_eval, toP_addL, Polynomial.eval_add, toP_eval, toP_eval]

theorem length_lagrange_le (els : List F) (pts : List (F × F)) :
    (lagrange els pts).length ≤ pts.length := by
  apply length_foldr_addL_le
  intro l hl
  simp only [List.mem_map, List.mem_range] at hl
  obtain ⟨i, hi, rfl⟩ := hl
  rw [length_scaleL, length_prodXsubC, List.length_eraseIdx, List.length_map, if_pos hi]
  omega

theorem fieldInv_mul (els : List F) (hcp : ∀ x : F, x ∈ els) {a : F} (ha : a ≠ 0) :
    a * fieldInv els a = 1 := by
  rw [fieldInv]
  cases h : els.find? fun b => a * b == 1 with
  | none =>
    exfalso
    have := List.find?_eq_none.mp h a⁻¹ (hcp a⁻¹)
    rw [mul_inv_cancel₀ ha] at this
    simp at this
  | some b =>
    have := List.find?_some h
    simpa using this

theorem evalU_scaleL (c : F) (l : List F) (t : F) :
    evalU (scaleL c l) t = c * evalU l t := by
  rw [← toP_eval, toP_scaleL, Polynomial.eval_mul, Polynomial.eval_C, toP_eval]

theorem evalU_mulXsubC (r : F) (l : List F) (t : F) :
    evalU (mulXsubC r l) t = (t - r) * evalU l t := by
  rw [← toP_eval, toP_mulXsubC, Polynomial.eval_mul, toP_eval]
  simp

theorem evalU_prodXsubC (xs : List F) (t : F) :
    evalU (prodXsubC xs) t = (xs.map fun x => t - x).prod := by
  induction xs with
  | nil => simp [prodXsubC, evalU]
  | cons x xs ih =>
    show evalU (mulXsubC x (prodXsubC xs)) t = _
    rw [evalU_mulXsubC, ih, List.map_cons, List.prod_cons]

theorem sum_map_range_zero (f : ℕ → F) (n : ℕ) (h : ∀ j < n, f j = 0) :
    ((List.range n).map f).sum = 0 := by
  induction n with
  | zero => simp
  | succ k ih =>
    rw [List.range_succ, List.map_append, List.sum_append]
    rw [ih fun j hj => h j (by omega)]
    simp [h k (by omega)]

theorem sum_map_range_single (f : ℕ → F) (n i : ℕ) (hi : i < n)
    (h : ∀ j < n, j ≠ i → f j = 0) : ((List.range n).map f).sum = f i := by
  induction n with
  | zero => omega
  | succ k ih =>
    rw [List.range_succ, List.map_append, List.sum_append]
    rcases Nat.lt_or_ge i k with hik | hik
    · rw [ih hik fun j hj hne => h j (by omega) hne]
      simp [h k (by omega) (by omega)]
    · have : i = k := by omega
      subst this
      rw [sum_map_range_zero _ _ fun j hj => h j (by omega) (by omega)]
      simp

theorem getD_mem_eraseIdx (xs : List F) (i j : ℕ) (hi : i < xs.length) (hne : i ≠ j) :
    xs.getD i 0 ∈ xs.eraseIdx j := by
  rw [List.eraseIdx_eq_take_drop_succ, List.getD_eq_getElem _ _ hi]
  rcases Nat.lt_or_ge i j with h | h
  · apply List.mem_append_left
    have hlt : i < (xs.take j).length := by
      rw [List.length_take]; omega
    have : (xs.take j)[i] = xs[i] := List.getElem_take _
    rw [← this]
    exact List.getElem_mem hlt
  · apply List.mem_append_right
    have hlt : i - (j + 1) < (xs.drop (j + 1)).length := by
      rw [List.length_drop]; omega
    rw [List.mem_iff_getElem]
    refine ⟨i - (j + 1), hlt, ?_⟩
    rw [List.getElem_drop]
    simp only [show j + 1 + (i - (j + 1)) = i from by omega]

theorem ne_getD_of_mem_eraseIdx (xs : List F) (hnd : xs.Nodup) (j : ℕ) (hj : j < xs.length)
    {x : F} (hx : x ∈ xs.eraseIdx j) : x ≠ xs.getD j 0 := by
  rw [List.getD_eq_getElem _ _ hj]
  have hxs : xs = xs.take j ++ xs[j] :: xs.drop (j + 1) := by
    rw [← List.drop_eq_getElem_cons hj, List.take_append_drop]
  rw [List.eraseIdx_eq_take_drop_succ] at hx
  rw [hxs, List.nodup_append] at hnd
  obtain ⟨h1, h2, h3⟩ := hnd
  rcases List.mem_append.mp hx with h | h
  · intro heq
    subst heq
    exact h3 h (List.mem_cons_self _ _)
  · intro heq
    subst heq
    exact (List.nodup_cons.mp h2).1 h

theorem lagrange_evalAtNode (els : List F) (hcp : ∀ x : F, x ∈ els) (pts : List (F × F))
    (hnd : (pts.map Prod.fst).Nodup) (i : ℕ) (hi : i < pts.length) :
    evalU (lagrange els pts) ((pts.getD i (0, 0)).1) = (pts.getD i (0, 0)).2 := by
  have hlen : (pts.map Prod.fst).length = pts.length := by simp
  have hgetfst : ∀ j, j < pts.length → (pts.map Prod.fst).getD j 0 = (pts.getD j (0, 0)).1 := by
    intro j hj
    rw [List.getD_eq_getElem _ _ (by omega), List.getD_eq_getElem _ _ hj, List.getElem_map]
  rw [lagrange, evalU_foldr_addL, List.map_map]
  rw [sum_map_range_single _ pts.length i hi]
  · rw [Function.comp_apply, evalU_scaleL, evalU_prodXsubC]
    have hD :
        (((pts.map Prod.fst).eraseIdx i).map fun x => (pts.getD i (0, 0)).1 - x).prod ≠ 0 := by
      apply List.prod_ne_zero
      intro h0
      obtain ⟨x, hx, hx0⟩ := List.mem_map.mp h0
      have := ne_getD_of_mem_eraseIdx (pts.map Prod.fst) hnd i (by omega) hx
      rw [hgetfst i hi] at this
      exact this (sub_eq_zero.mp hx0).symm
    rw [hgetfst i hi]
    calc ((pts.getD i (0, 0)).2 *
          fieldInv els (((pts.map Prod.fst).eraseIdx i).map
            fun xj => (pts.getD i (0, 0)).1 - xj).prod) *
          (((pts.map Prod.fst).eraseIdx i).map fun x => (pts.getD i (0, 0)).1 - x).prod
        = (pts.getD i (0, 0)).2 *
          ((((pts.map Prod.fst).eraseIdx i).map fun x => (pts.getD i (0, 0)).1 - x).prod *
            fieldInv els (((pts.map Prod.fst).eraseIdx i).map
              fun x => (pts.getD i (0, 0)).1 - x).prod) := by ring
      _ = (pts.getD i (0, 0)).2 := by rw [fieldInv_mul els hcp hD, mul_one]
  · intro j hj hne
    rw [Function.comp_apply, evalU_scaleL, evalU_prodXsubC]
    have hmem : (pts.map Prod.fst).getD i 0 ∈ (pts.map Prod.fst).eraseIdx j :=
      getD_mem_eraseIdx _ i j (by omega) (Ne.symm hne)
    have : (0 : F) ∈ ((pts.map Prod.fst).eraseIdx j).map
        fun x => (pts.getD i (0, 0)).1 - x := by
      refine List.mem_map.mpr ⟨(pts.map Prod.fst).getD i 0, hmem, ?_⟩
      rw [hgetfst i hi, sub_self]
    rw [List.prod_eq_zero this, mul_zero]

theorem lagrange_recovers (els : List F) (hnd : els.Nodup) (hcp : ∀ x : F, x ∈ els)
    (g : List F) (d : ℕ) (hdq : d ≤ els.length)
    (hg : ∀ c, d ≤ c → g.getD c 0 = 0) (c : ℕ) :
    (padTo d (lagrange els ((List.range d).map fun i =>
      (els.getD i 0, evalU g (els.getD i 0))))).getD c 0 = g.getD c 0 := by
  have hdefault : ∀ (l : List F) (n : ℕ), l.getD n 0 = (toP l).coeff n := fun l n =>
    (toP_coeff l n).symm
  rw [hdefault, hdefault, toP_padTo]
  set pts : List (F × F) :=
    (List.range d).map fun i => (els.getD i 0, evalU g (els.getD i 0)) with hpts
  have hptslen : pts.length = d := by simp [hpts]
  have hptsget : ∀ i, i < d → pts.getD i (0, 0) = (els.getD i 0, evalU g (els.getD i 0)) := by
    intro i hi
    rw [List.getD_eq_getElem _ _ (by omega)]
    simp only [hpts, List.getElem_map, List.getElem_range]
  have hxs : pts.map Prod.fst = els.take d := by
    apply List.ext_getElem
    · simp [hpts, hdq]
    · intro i h1 h2
      rw [List.length_take] at h2
      simp only [hpts, List.getElem_map, List.getElem_range, List.getElem_take]
      exact List.getD_eq_getElem els 0 (by omega)
  have hxnd : (pts.map Prod.fst).Nodup := by
    rw [hxs]
    exact List.Nodup.sublist (List.take_sublist d els) hnd
  have hcard : (els.take d).toFinset.card = d := by
    rw [List.toFinset_card_of_nodup (List.Nodup.sublist (List.take_sublist d els) hnd),
      List.length_take]
    omega
  have hmain : toP (lagrange els pts) = toP g := by
    apply Polynomial.eq_of_degrees_lt_of_eval_finset_eq (els.take d).toFinset
    · rw [hcard]
      calc (toP (lagrange els pts)).degree < ((lagrange els pts).length : ℕ) :=
            toP_degree_lt _
        _ ≤ (d : WithBot ℕ) := by
            exact_mod_cast Nat.cast_le.mpr (le_of_le_of_eq (length_lagrange_le els pts) hptslen)
    · rw [hcard, Polynomial.degree_lt_iff_coeff_zero]
      intro m hm
      rw [toP_coeff]
      exact hg m hm
    · intro x hx
      obtain ⟨i, hilt, hieq⟩ := List.mem_iff_getElem.mp (List.mem_toFinset.mp hx)
      rw [List.length_take] at hilt
      have hid : i < d := by omega
      have hxval : x = els.getD i 0 := by
        rw [← hieq, List.getElem_take, List.getD_eq_getElem _ _ (by omega)]
      rw [toP_eval, toP_eval]
      have := lagrange_evalAtNode els hcp pts hxnd i (by omega)
      rw [hptsget i hid] at this
      rw [hxval, this]
  rw [hmain]

theorem isZeroP_zeroP (m : ℕ) : isZeroP (zeroP m : MPoly F m) = true := by
  cases m with
  | zero => simp [isZeroP, zeroP]
  | succ m => simp [isZeroP, zeroP]

theorem varDegOK_zeroP (q m : ℕ) : varDegOK q (zeroP m : MPoly F m) = true := by
  cases m with
  | zero => simp [varDegOK, zeroP]
  | succ m => simp [varDegOK, zeroP]

theorem coeffP_zeroP (m : ℕ) (e : ℕ → ℕ) : coeffP (zeroP m : MPoly F m) e = 0 := by
  induction m with
  | zero => simp [coeffP, zeroP]
  | succ m ih =>
    show coeffP (([] : List (MPoly F m)).getD (e m) (zeroP m)) e = 0
    simpa [List.getD] using ih

theorem coeffP_of_isZero : ∀ {m : ℕ} (p : MPoly F m), isZeroP p = true → ∀ e : ℕ → ℕ,
    coeffP p e = 0
  | 0, p, h, e => by simpa [isZeroP] using h
  | m + 1, l, h, e => by
    show coeffP ((l : List (MPoly F m)).getD (e m) (zeroP m)) e = 0
    rcases Nat.lt_or_ge (e m) (l : List (MPoly F m)).length with hc | hc
    · rw [List.getD_eq_getElem _ _ hc]
      have hz := (List.all_eq_true.mp h) _ (List.getElem_mem hc)
      exact coeffP_of_isZero _ hz e
    · rw [List.getD_eq_default _ _ hc]
      exact coeffP_zeroP m e

theorem evalU_zero_list (l : List F) (h : ∀ x ∈ l, x = 0) (t : F) : evalU l t = 0 := by
  induction l with
  | nil => simp [evalU]
  | cons a l ih =>
    show a + t * evalU l t = 0
    rw [h a (by simp), ih fun x hx => h x (by simp [hx]), mul_zero, add_zero]

theorem evalMP_of_isZero : ∀ {m : ℕ} (p : MPoly F m), isZeroP p = true → ∀ pt : ℕ → F,
    evalMP p pt = 0
  | 0, p, h, pt => by simpa [isZeroP, evalMP] using h
  | m + 1, l, h, pt => by
    show evalU ((l : List (MPoly F m)).map fun P => evalMP P pt) (pt (m : ℕ)) = 0
    apply evalU_zero_list
    intro x hx
    obtain ⟨P, hP, rfl⟩ := List.mem_map.mp hx
    exact evalMP_of_isZero P ((List.all_eq_true.mp h) _ hP) pt

theorem le_foldr_max (L : List ℤ) (a x : ℤ) (hx : x ∈ L) : x ≤ L.foldr max a := by
  induction L with
  | nil => simp at hx
  | cons y L ih =>
    rcases List.mem_cons.mp hx with rfl | hx
    · exact le_max_left _ _
    · exact (ih hx).trans (le_max_right _ _)

theorem initial_le_foldr_max (L : List ℤ) (a : ℤ) : a ≤ L.foldr max a := by
  induction L with
  | nil => simp
  | cons y L ih => exact ih.trans (le_max_right _ _)

theorem foldr_max_le (L : List ℤ) (a z : ℤ) (ha : a ≤ z) (h : ∀ x ∈ L, x ≤ z) :
    L.foldr max a ≤ z := by
  induction L with
  | nil => simpa
  | cons y L ih =>
    exact max_le (h y (by simp)) (ih fun x hx => h x (by simp [hx]))

theorem totalDegP_of_isZero : ∀ {m : ℕ} (p : MPoly F m), isZeroP p = true →
    totalDegP p = -1
  | 0, p, h => by
    have : p = (0 : F) := by simpa [isZeroP] using h
    simp [totalDegP, this]
  | m + 1, l, h => by
    show ((asList l).enum.map fun ck =>
      if isZeroP ck.2 then (-1 : ℤ) else (ck.1 : ℤ) + totalDegP ck.2).foldr max (-1) = -1
    have hall : ((asList l).all fun P => isZeroP P) = true := h
    refine le_antisymm (foldr_max_le _ _ _ le_rfl ?_) (initial_le_foldr_max _ _)
    intro x hx
    obtain ⟨ck, hck, rfl⟩ := List.mem_map.mp hx
    obtain ⟨i, hi, hck2⟩ := List.mem_iff_getElem.mp hck
    rw [List.getElem_enum] at hck2
    rw [← hck2]
    have hilen : i < (asList l).length := by
      rw [List.enum_length] at hi
      exact hi
    rw [if_pos ((List.all_eq_true.mp hall) _ (List.getElem_mem hilen))]

theorem totalDegP_nonneg_of_not_zero : ∀ {m : ℕ} (p : MPoly F m), isZeroP p = false →
    0 ≤ totalDegP p
  | 0, p, h => by
    have : ¬ p = (0 : F) := by simpa [isZeroP] using h
    simp [totalDegP, this]
  | m + 1, l, h => by
    show 0 ≤ ((asList l).enum.map fun ck =>
      if isZeroP ck.2 then (-1 : ℤ) else (ck.1 : ℤ) + totalDegP ck.2).foldr max (-1)
    have hall : ((asList l).all fun P => isZeroP P) = false := h
    have hnot : ¬ ((asList l).all fun P => isZeroP P) = true := by simp [hall]
    rw [List.all_eq_true] at hnot
    push_neg at hnot
    obtain ⟨P, hP, hPz⟩ := hnot
    obtain ⟨c, hc, hceq⟩ := List.mem_iff_getElem.mp hP
    have henum : ((c, (asList l)[c]) : ℕ × MPoly F m) ∈ (asList l).enum := by
      rw [List.mem_iff_getElem]
      exact ⟨c, by rw [List.enum_length]; exact hc, by rw [List.getElem_enum]⟩
    have hPz2 : isZeroP (asList l)[c] = false := by
      rw [hceq]
      exact Bool.not_eq_true _ |>.mp hPz
    have hval : ((c : ℤ) + totalDegP (asList l)[c]) ∈ ((asList l).enum.map fun ck =>
        if isZeroP ck.2 then (-1 : ℤ) else (ck.1 : ℤ) + totalDegP ck.2) := by
      refine List.mem_map.mpr ⟨_, henum, ?_⟩
      rw [if_neg (by simp [hPz2])]
    refine le_trans ?_ (le_foldr_max _ _ _ hval)
    have := totalDegP_nonneg_of_not_zero ((asList l)[c]) hPz2
    positivity

theorem totalDegP_entry (m : ℕ) (l : List (MPoly F m)) (z : ℤ)
    (h : totalDegP (m := m + 1) l ≤ z) (c : ℕ) :
    isZeroP (l.getD c (zeroP m)) = true ∨ (c : ℤ) + totalDegP (l.getD c (zeroP m)) ≤ z := by
  rcases Nat.lt_or_ge c l.length with hc | hc
  · rw [List.getD_eq_getElem _ _ hc]
    by_cases hz : isZeroP l[c] = true
    · exact Or.inl hz
    · right
      have henum : ((c, l[c]) : ℕ × MPoly F m) ∈ l.enum := by
        rw [List.mem_iff_getElem]
        exact ⟨c, by simpa using hc, by rw [List.getElem_enum]⟩
      have hval : ((c : ℤ) + totalDegP l[c]) ∈ (l.enum.map fun ck =>
          if isZeroP ck.2 then (-1 : ℤ) else (ck.1 : ℤ) + totalDegP ck.2) := by
        refine List.mem_map.mpr ⟨_, henum, ?_⟩
        rw [if_neg hz]
      exact le_trans (le_foldr_max _ _ _ hval) h
  · rw [List.getD_eq_default _ _ hc]
    exact Or.inl (isZeroP_zeroP m)

/-- A coefficient of the last variable sitting at an index at or beyond `q` is
semantically zero when every individual degree is below `q`. -/
theorem varDegOK_entry_high (q m : ℕ) (l : List (MPoly F m))
    (h : varDegOK q (m := m + 1) l = true) (c : ℕ) (hc : q ≤ c) :
    isZeroP (l.getD c (zeroP m)) = true := by
  rcases Nat.lt_or_ge c l.length with hlen | hlen
  · rw [List.getD_eq_getElem _ _ hlen]
    have hdrop : l[c] ∈ l.drop q := by
      rw [List.mem_iff_getElem]
      refine ⟨c - q, by rw [List.length_drop]; omega, ?_⟩
      rw [List.getElem_drop]
      simp only [show q + (c - q) = c from by omega]
    have h' : (((l.drop q).all fun P => isZeroP P) && l.all fun P => varDegOK q P) = true := h
    rw [Bool.and_eq_true] at h'
    exact (List.all_eq_true.mp h'.1) _ hdrop
  · rw [List.getD_eq_default _ _ hlen]
    exact isZeroP_zeroP m

theorem evalMP_congr : ∀ {m : ℕ} (p : MPoly F m) (pt pt' : ℕ → F),
    (∀ j < m, pt j = pt' j) → evalMP p pt = evalMP p pt'
  | 0, _, _, _, _ => rfl
  | m + 1, l, pt, pt', h => by
    show evalU ((asList l).map fun P => evalMP P pt) (pt m) =
      evalU ((asList l).map fun P => evalMP P pt') (pt' m)
    rw [h m (Nat.lt_succ_self m)]
    congr 1
    apply List.map_congr_left
    intro P _
    exact evalMP_congr P pt pt' fun j hj => h j (by omega)

theorem gridPt_lower (els : List F) (hq : 0 < els.length) (m k i j : ℕ) (hj : j < m) :
    gridPt els (k + i * els.length ^ m) j = gridPt els k j := by
  unfold gridPt
  have h1 : els.length ^ m = els.length ^ (m - j - 1) * els.length * els.length ^ j := by
    rw [mul_assoc, ← pow_succ']
    rw [← pow_add]
    congr 1
    omega
  have h2 : (k + i * els.length ^ m) / els.length ^ j % els.length =
      k / els.length ^ j % els.length := by
    rw [h1, ← mul_assoc, Nat.add_mul_div_right _ _ (pow_pos hq j), ← mul_assoc,
      Nat.add_mul_mod_self_right]
  rw [h2]

theorem gridPt_last (els : List F) (m k i : ℕ) (hk : k < els.length ^ m)
    (hi : i < els.length) :
    gridPt els (k + i * els.length ^ m) m = els.getD i 0 := by
  unfold gridPt
  congr 1
  rw [Nat.add_mul_div_right _ _ (pow_pos (by omega) m), Nat.div_eq_of_lt hk, zero_add,
    Nat.mod_eq_of_lt hi]

theorem index_bound (q m k i d : ℕ) (hq : 0 < q) (hk : k < q ^ m) (hi : i < d)
    (hd : d ≤ q) : k + i * q ^ m < q ^ (m + 1) := by
  have h1 : i * q ^ m ≤ (q - 1) * q ^ m := Nat.mul_le_mul_right _ (by omega)
  have h2 : (q - 1) * q ^ m + q ^ m = q * q ^ m := by
    have hq1 : q - 1 + 1 = q := by omega
    calc (q - 1) * q ^ m + q ^ m = (q - 1 + 1) * q ^ m := by ring
      _ = q * q ^ m := by rw [hq1]
  have h3 : q ^ (m + 1) = q * q ^ m := by rw [pow_succ, mul_comm]
  omega

theorem interp_congr (els : List F) (hq : 0 < els.length) :
    ∀ (m : ℕ) (ev ev' : ℕ → F) (ord : ℕ),
    (∀ t < els.length ^ m, ev t = ev' t) → interp els m ev ord = interp els m ev' ord
  | 0, ev, ev', ord, h => by
    show ev 0 = ev' 0
    exact h 0 (by simpa using Nat.one_pos)
  | m + 1, ev, ev', ord, h => by
    by_cases h0 : ord = 0
    · subst h0
      show (if (0 : ℕ) = 0 then constP (ev 0) (m + 1) else _) =
        (if (0 : ℕ) = 0 then constP (ev' 0) (m + 1) else _)
      rw [if_pos rfl, if_pos rfl, h 0 (pow_pos hq (m + 1))]
    · simp only [interp, if_neg h0]
      have hmel : ((List.range (els.length ^ m)).map fun k =>
          padTo (min (ord + 1) els.length) (lagrange els
            ((List.range (min (ord + 1) els.length)).map fun i =>
              (els.getD i 0, ev (k + i * els.length ^ m))))) =
          ((List.range (els.length ^ m)).map fun k =>
          padTo (min (ord + 1) els.length) (lagrange els
            ((List.range (min (ord + 1) els.length)).map fun i =>
              (els.getD i 0, ev' (k + i * els.length ^ m))))) := by
        apply List.map_congr_left
        intro k hk
        rw [List.mem_range] at hk
        congr 2
        apply List.map_congr_left
        intro i hi
        rw [List.mem_range] at hi
        have hiq : i < min (ord + 1) els.length := hi
        congr 1
        exact h _ (index_bound _ m k i _ hq hk hi (min_le_right _ _))
      rw [hmel]

theorem evalU_eq_head (l : List F) (h : ∀ c, 1 ≤ c → l.getD c 0 = 0) (t : F) :
    evalU l t = l.getD 0 0 := by
  cases l with
  | nil => simp [evalU, List.getD]
  | cons a rest =>
    show a + t * evalU rest t = (a :: rest).getD 0 0
    have hz : evalU rest t = 0 := by
      apply evalU_zero_list
      intro x hx
      obtain ⟨c, hc, hceq⟩ := List.mem_iff_getElem.mp hx
      rw [← hceq, ← List.getD_eq_getElem rest 0 hc]
      have hc1 := h (c + 1) (by omega)
      rwa [List.getD_cons_succ] at hc1
    rw [hz, mul_zero, add_zero, List.getD_cons_zero]

theorem coeffP_constP_of_totalDeg_le : ∀ {m : ℕ} (p : MPoly F m), totalDegP p ≤ 0 →
    ∀ (pt : ℕ → F) (e : ℕ → ℕ), coeffP (constP (evalMP p pt) m) e = coeffP p e
  | 0, _, _, _, _ => rfl
  | m + 1, l, h, pt, e => by
    have hP0deg : totalDegP ((asList l).getD 0 (zeroP m)) ≤ 0 := by
      rcases totalDegP_entry m (asList l) 0 h 0 with hz | hle
      · rw [totalDegP_of_isZero _ hz]; norm_num
      · simpa using hle
    have hhigh : ∀ c, 1 ≤ c → isZeroP ((asList l).getD c (zeroP m)) = true := by
      intro c hc
      rcases totalDegP_entry m (asList l) 0 h c with hz | hle
      · exact hz
      · by_cases hzz : isZeroP ((asList l).getD c (zeroP m)) = true
        · exact hzz
        · exfalso
          have hnn := totalDegP_nonneg_of_not_zero ((asList l).getD c (zeroP m))
            (Bool.not_eq_true _ |>.mp hzz)
          have : (1 : ℤ) ≤ (c : ℤ) := by exact_mod_cast hc
          omega
    have hv : evalMP (m := m + 1) l pt = evalMP ((asList l).getD 0 (zeroP m)) pt := by
      show evalU ((asList l).map fun P => evalMP P pt) (pt m) = _
      rw [evalU_eq_head]
      · cases hl : asList l with
        | nil => simp [List.getD, hl, evalMP_of_isZero _ (isZeroP_zeroP m)]
        | cons P rest => simp [hl]
      · intro c hc
        rcases Nat.lt_or_ge c ((asList l).map fun P => evalMP P pt).length with hlt | hge
        · rw [List.getD_eq_getElem _ _ hlt, List.getElem_map]
          exact evalMP_of_isZero _ (by
            have hcl : c < (asList l).length := by simpa using hlt
            have := hhigh c hc
            rwa [List.getD_eq_getElem _ _ hcl] at this) pt
        · rw [List.getD_eq_default _ _ hge]
    show coeffP (([constP (evalMP (m := m + 1) l pt) m] : List (MPoly F m)).getD (e m)
      (zeroP m)) e = coeffP ((asList l).getD (e m) (zeroP m)) e
    cases he : e m with
    | zero =>
      rw [List.getD_cons_zero, hv]
      exact coeffP_constP_of_totalDeg_le _ hP0deg pt e
    | succ c =>
      rw [List.getD_cons_succ, List.getD_nil]
      rw [coeffP_zeroP, coeffP_of_isZero _ (hhigh (c + 1) (by omega)) e]

theorem varDegOK_entry (q m : ℕ) (l : List (MPoly F m))
    (h : varDegOK q (m := m + 1) l = true) (c : ℕ) :
    varDegOK q (l.getD c (zeroP m)) = true := by
  rcases Nat.lt_or_ge c l.length with hlen | hlen
  · rw [List.getD_eq_getElem _ _ hlen]
    have h' : (((l.drop q).all fun P => isZeroP P) && l.all fun P => varDegOK q P) = true := h
    rw [Bool.and_eq_true] at h'
    exact (List.all_eq_true.mp h'.2) _ (List.getElem_mem hlen)
  · rw [List.getD_eq_default _ _ hlen]
    exact varDegOK_zeroP q m

/-- An entry whose index reaches `d = min (ord + 1) q` is semantically zero,
either because it would overrun the total degree or the per-variable cap. -/
theorem entry_high_zero (m ord : ℕ) (q : ℕ) (l : List (MPoly F m))
    (htd : totalDegP (m := m + 1) l ≤ (ord : ℤ)) (hvd : varDegOK q (m := m + 1) l = true)
    (c : ℕ) (hc : min (ord + 1) q ≤ c) : isZeroP (l.getD c (zeroP m)) = true := by
  rcases le_or_lt q c with hcq | hcq
  · exact varDegOK_entry_high q m l hvd c hcq
  · have hcord : ord + 1 ≤ c := by omega
    rcases totalDegP_entry m l ord htd c with hz | hle
    · exact hz
    · by_cases hzz : isZeroP (l.getD c (zeroP m)) = true
      · exact hzz
      · exfalso
        have hnn := totalDegP_nonneg_of_not_zero (l.getD c (zeroP m))
          (Bool.not_eq_true _ |>.mp hzz)
        have hcast : (ord : ℤ) + 1 ≤ (c : ℤ) := by exact_mod_cast hcord
        omega

/-- Central round-trip statement: interpolating the grid evaluations of a
polynomial whose total degree is at most `ord` and whose individual variable
degrees all stay below the field size recovers the polynomial
coefficient-by-coefficient. -/
theorem interp_evalMP (els : List F) (hnd : els.Nodup) (hcp : ∀ x : F, x ∈ els) :
    ∀ (m ord : ℕ) (p : MPoly F m), totalDegP p ≤ (ord : ℤ) →
      varDegOK els.length p = true → ∀ e : ℕ → ℕ,
      coeffP (interp els m (fun t => evalMP p (gridPt els t)) ord) e = coeffP p e
  | 0, ord, p, _, _, e => rfl
  | m + 1, ord, l, htd, hvd, e => by
    have hq : 0 < els.length := List.length_pos_of_mem (hcp 0)
    by_cases hord : ord = 0
    · subst hord
      simp only [interp, if_pos rfl]
      exact coeffP_constP_of_totalDeg_le l (by exact_mod_cast htd) (gridPt els 0) e
    · simp only [interp, if_neg hord]
      have hdq : min (ord + 1) els.length ≤ els.length := min_le_right _ _
      have hzero_high : ∀ c, min (ord + 1) els.length ≤ c →
          isZeroP ((asList l).getD c (zeroP m)) = true :=
        entry_high_zero m ord els.length (asList l) htd hvd
      have hrow : ∀ k2, k2 < els.length ^ m → ∀ kc,
          ((((List.range (els.length ^ m)).map fun k =>
            padTo (min (ord + 1) els.length) (lagrange els
              ((List.range (min (ord + 1) els.length)).map fun i =>
                (els.getD i 0,
                  evalMP (m := m + 1) l (gridPt els (k + i * els.length ^ m)))))).getD
            k2 []).getD kc 0) =
          evalMP ((asList l).getD kc (zeroP m)) (gridPt els k2) := by
        intro k2 hk2 kc
        have hmelget : ((List.range (els.length ^ m)).map fun k =>
            padTo (min (ord + 1) els.length) (lagrange els
              ((List.range (min (ord + 1) els.length)).map fun i =>
                (els.getD i 0,
                  evalMP (m := m + 1) l (gridPt els (k + i * els.length ^ m)))))).getD
            k2 [] =
            padTo (min (ord + 1) els.length) (lagrange els
              ((List.range (min (ord + 1) els.length)).map fun i =>
                (els.getD i 0,
                  evalMP (m := m + 1) l (gridPt els (k2 + i * els.length ^ m))))) := by
          rw [List.getD_eq_getElem _ _ (by simpa using hk2), List.getElem_map,
            List.getElem_range]
        rw [hmelget]
        have hpts : ((List.range (min (ord + 1) els.length)).map fun i =>
            (els.getD i 0,
              evalMP (m := m + 1) l (gridPt els (k2 + i * els.length ^ m)))) =
            ((List.range (min (ord + 1) els.length)).map fun i =>
            (els.getD i 0,
              evalU ((asList l).map fun P => evalMP P (gridPt els k2))
                (els.getD i 0))) := by
          apply List.map_congr_left
          intro i hi
          rw [List.mem_range] at hi
          have hiq : i < els.length := lt_of_lt_of_le hi hdq
          congr 1
          show evalU ((asList l).map fun P =>
              evalMP P (gridPt els (k2 + i * els.length ^ m)))
            (gridPt els (k2 + i * els.length ^ m) m) = _
          rw [gridPt_last els m k2 i hk2 hiq]
          congr 1
          apply List.map_congr_left
          intro P _
          exact evalMP_congr P _ _ fun j hj => gridPt_lower els hq m k2 i j hj
        rw [hpts]
        have hglist_high : ∀ c, min (ord + 1) els.length ≤ c →
            ((asList l).map fun P => evalMP P (gridPt els k2)).getD c 0 = 0 := by
          intro c hc
          rcases Nat.lt_or_ge c ((asList l).map fun P =>
              evalMP P (gridPt els k2)).length with hlt | hge
          · rw [List.getD_eq_getElem _ _ hlt, List.getElem_map]
            have hcl : c < (asList l).length := by simpa using hlt
            have hz := hzero_high c hc
            rw [List.getD_eq_getElem _ _ hcl] at hz
            exact evalMP_of_isZero _ hz _
          · rw [List.getD_eq_default _ _ hge]
        rw [lagrange_recovers els hnd hcp _ _ hdq hglist_high kc]
        rcases Nat.lt_or_ge kc (asList l).length with hlt | hge
        · rw [List.getD_eq_getElem _ _ (by simpa using hlt), List.getElem_map,
            List.getD_eq_getElem _ _ hlt]
        · rw [List.getD_eq_default _ _ (by simpa using hge),
            List.getD_eq_default _ _ hge,
            evalMP_of_isZero _ (isZeroP_zeroP m)]
      have hsucc : ∀ (l' : List (MPoly F m)) (e' : ℕ → ℕ),
          coeffP (m := m + 1) l' e' = coeffP (l'.getD (e' m) (zeroP m)) e' := fun _ _ => rfl
      rw [hsucc, hsucc]
      rcases Nat.lt_or_ge (e m) (min (ord + 1) els.length) with hem | hem
      · rw [List.getD_eq_getElem _ _ (by simpa using hem), List.getElem_map,
          List.getElem_range]
        rw [interp_congr els hq m _ _ (ord - e m) fun t ht => hrow t ht (e m)]
        have hkcord : e m ≤ ord := by omega
        have htdkc : totalDegP ((asList l).getD (e m) (zeroP m)) ≤ ((ord - e m : ℕ) : ℤ) := by
          rcases totalDegP_entry m (asList l) ord htd (e m) with hz | hle
          · rw [totalDegP_of_isZero _ hz]
            have : (0 : ℤ) ≤ ((ord - e m : ℕ) : ℤ) := Int.ofNat_nonneg _
            omega
          · rw [Nat.cast_sub hkcord]
            omega
        exact interp_evalMP els hnd hcp m (ord - e m) ((asList l).getD (e m) (zeroP m))
          htdkc (varDegOK_entry els.length m (asList l) hvd (e m)) e
      · rw [List.getD_eq_default _ _ (by simpa using hem), coeffP_zeroP,
          coeffP_of_isZero _ (hzero_high (e m) hem) e]

theorem isZeroP_all_drop (q m : ℕ) (l : List (MPoly F m)) (h : isZeroP (m := m + 1) l = true) :
    ((l.drop q).all fun P => isZeroP P) = true := by
  have hall : (l.all fun P => isZeroP P) = true := h
  rw [List.all_eq_true] at hall ⊢
  exact fun P hP => hall P (List.mem_of_mem_drop hP)

theorem varDegOK_of_isZero : ∀ {m : ℕ} (p : MPoly F m) (q : ℕ), isZeroP p = true →
    varDegOK q p = true
  | 0, _, _, _ => rfl
  | m + 1, l, q, h => by
    show ((((asList l).drop q).all fun P => isZeroP P) &&
      (asList l).all fun P => varDegOK q P) = true
    rw [Bool.and_eq_true]
    refine ⟨isZeroP_all_drop q m (asList l) h, ?_⟩
    rw [List.all_eq_true]
    intro P hP
    have hall : ((asList l).all fun P => isZeroP P) = true := h
    exact varDegOK_of_isZero P q ((List.all_eq_true.mp hall) P hP)

/-- When the total degree bound is below `q`, every individual variable degree
is automatically below `q`: the side condition of the amended round-trip claim
is vacuous in the q-ary regime `order < q`. -/
theorem varDegOK_of_totalDegP_le : ∀ {m : ℕ} (p : MPoly F m) (z : ℤ) (q : ℕ),
    totalDegP p ≤ z → z < (q : ℤ) → varDegOK q p = true
  | 0, _, _, _, _, _ => rfl
  | m + 1, l, z, q, htd, hzq => by
    show ((((asList l).drop q).all fun P => isZeroP P) &&
      (asList l).all fun P => varDegOK q P) = true
    rw [Bool.and_eq_true]
    constructor
    · rw [List.all_eq_true]
      intro P hP
      obtain ⟨j, hj, hjeq⟩ := List.mem_iff_getElem.mp hP
      have hqj : q + j < (asList l).length := by
        rw [List.length_drop] at hj
        omega
      have h31 : ((asList l).drop q)[j] = (asList l)[q + j] := List.getElem_drop _
      have hz : isZeroP ((asList l).getD (q + j) (zeroP m)) = true := by
        rcases totalDegP_entry m (asList l) z htd (q + j) with hz | hle
        · exact hz
        · by_cases hzz : isZeroP ((asList l).getD (q + j) (zeroP m)) = true
          · exact hzz
          · exfalso
            have hnn := totalDegP_nonneg_of_not_zero _ (Bool.not_eq_true _ |>.mp hzz)
            have hcast : (q : ℤ) ≤ ((q + j : ℕ) : ℤ) := by push_cast; omega
            omega
      rw [← hjeq, h31]
      rw [List.getD_eq_getElem _ _ hqj] at hz
      exact hz
    · rw [List.all_eq_true]
      intro P hP
      obtain ⟨c, hc, hceq⟩ := List.mem_iff_getElem.mp hP
      rcases totalDegP_entry m (asList l) z htd c with hz | hle
      · rw [← hceq]
        have := hz
        rw [List.getD_eq_getElem _ _ hc] at this
        exact varDegOK_of_isZero _ q this
      · rw [← hceq]
        have hle2 : totalDegP ((asList l)[c]) ≤ z := by
          rw [List.getD_eq_getElem _ _ hc] at hle
          have : (0 : ℤ) ≤ (c : ℤ) := Int.ofNat_nonneg _
          omega
        exact varDegOK_of_totalDegP_le _ z q hle2 hzq

theorem evalVec_getD (els : List F) (m : ℕ) (p : MPoly F m) (t : ℕ)
    (ht : t < els.length ^ m) :
    (evalVec els m p).getD t 0 = evalMP p (gridPt els t) := by
  rw [evalVec, List.getD_eq_getElem _ _ (by simpa using ht), List.getElem_map,
    List.getElem_range]

theorem length_evalVec (els : List F) (m : ℕ) (p : MPoly F m) :
    (evalVec els m p).length = els.length ^ m := by
  simp [evalVec]

theorem encodeP_ok (els : List F) (ord m : ℕ) (p : MPoly F m) (v : List F)
    (henc : encodeP els ord m p = Except.ok v) :
    totalDegP p ≤ (ord : ℤ) ∧ v = evalVec els m p := by
  by_cases h : totalDegP p > (ord : ℤ)
  · rw [encodeP, if_pos h] at henc
    exact absurd henc (by simp)
  · rw [encodeP, if_neg h] at henc
    exact ⟨le_of_not_lt h, by injection henc with h'; exact h'.symm⟩

theorem c1_roundtrip_amended {F : Type} [Field F] [DecidableEq F] (els : List F)
    (hnd : els.Nodup) (hcp : ∀ x : F, x ∈ els) (m ord : ℕ) (p : MPoly F m) (v : List F)
    (henc : encodeP els ord m p = Except.ok v)
    (hvd : varDegOK els.length p = true) :
    ∀ e : ℕ → ℕ, coeffP (interp els m (fun t => v.getD t 0) ord) e = coeffP p e := by
  intro e
  obtain ⟨htd, hv⟩ := encodeP_ok els ord m p v henc
  have hq : 0 < els.length := List.length_pos_of_mem (hcp 0)
  have hagree : ∀ t, t < els.length ^ m → v.getD t 0 = evalMP p (gridPt els t) :=
    fun t ht => by rw [hv, evalVec_getD els m p t ht]
  rw [interp_congr els hq m _ _ ord hagree]
  exact interp_evalMP els hnd hcp m ord p htd hvd e

/-- Witness for `c1_roundtrip_amended`: the `GF(3)`, two-variable, order-2 code
and the doctest polynomial. -/
theorem c1_roundtrip_amended_witness :
    els3.Nodup ∧ (∀ x : ZMod 3, x ∈ els3) ∧
    encodeP els3 2 2 pC4 = Except.ok [1, 2, 0, 0, 2, 1, 1, 1, 1] ∧
    varDegOK els3.length pC4 = true ∧
    ∀ e : ℕ → ℕ, coeffP (interp els3 2
      (fun t => ([1, 2, 0, 0, 2, 1, 1, 1, 1] : List (ZMod 3)).getD t 0) 2) e =
      coeffP pC4 e :=
  ⟨by decide, by decide, by rfl, by decide,
    c1_roundtrip_amended els3 (by decide) (by decide) 2 2 pC4 _ (by rfl) (by decide)⟩

/-- Counterexample to C1 as stated: over the binary Reed-Muller code with
`order = 2 ≤ num_vars = 2`, the polynomial `x0^2` has total degree `2 ≤ order`,
is accepted by `encode` (evaluation vector `(0,1,0,1)`), yet interpolating that
vector returns a polynomial whose `x0^2`-coefficient is `0` where `p` has `1`:
the round trip is not the identity coefficient-wise. -/
theorem c1_roundtrip_counterexample :
    totalDegP pSq = 2 ∧
    encodeP els2 2 2 pSq = Except.ok [0, 1, 0, 1] ∧
    coeffP (interp els2 2 (fun t => ([0, 1, 0, 1] : List (ZMod 2)).getD t 0) 2) eSq = 0 ∧
    coeffP pSq eSq = 1 :=
  ⟨by decide, by rfl, by decide, by decide⟩

/-- C4: over `GF(3)` with 2 variables and order 2, the doctest polynomial
`p = 1 + x0 + x1 + x1^2 + x0*x1` encodes to `(1, 2, 0, 0, 2, 1, 1, 1, 1)`, and
interpolating that vector returns exactly `p`, coefficient for coefficient. -/
theorem c4_gf3_doctest :
    encodeP els3 2 2 pC4 = Except.ok [1, 2, 0, 0, 2, 1, 1, 1, 1] ∧
    ∀ e : ℕ → ℕ, coeffP (interp els3 2
      (fun t => ([1, 2, 0, 0, 2, 1, 1, 1, 1] : List (ZMod 3)).getD t 0) 2) e =
      coeffP pC4 e := by
  constructor
  · rfl
  · intro e
    have hagree : ∀ t, t < els3.length ^ 2 →
        ([1, 2, 0, 0, 2, 1, 1, 1, 1] : List (ZMod 3)).getD t 0 =
        evalMP pC4 (gridPt els3 t) := by decide
    rw [interp_congr els3 (by decide) 2 _ _ 2 hagree]
    exact interp_evalMP els3 (by decide) (by decide) 2 2 pC4 (by decide) (by decide) e

/-- C10: whenever the code has order 0 or no variables, `unencode_nocheck`
returns the bare first entry `c 0` of the evaluation vector, an element of the
base field rather than of the polynomial ring, and the result ignores every
other entry of `c`. -/
theorem c10_unencode_base {F : Type} [Field F] [DecidableEq F] (els : List F)
    (m ord : ℕ) (c : ℕ → F) (h : ord = 0 ∨ m = 0) :
    unencode_nocheck els m ord c = Sum.inl (c 0) ∧
    ∀ p : MPoly F m, unencode_nocheck els m ord c ≠ Sum.inr p := by
  have hcond : m = 0 ∨ ord = 0 := h.symm
  constructor
  · rw [unencode_nocheck, if_pos hcond]
  · intro p
    rw [unencode_nocheck, if_pos hcond]
    simp

/-- Witness for `c10_unencode_base` at `m = 0`, `ord = 2` over `GF(3)` with the
constant evaluation vector `1`. -/
theorem c10_unencode_base_witness :
    unencode_nocheck els3 0 2 (fun _ => (1 : ZMod 3)) = Sum.inl 1 ∧
    ∀ p : MPoly (ZMod 3) 0,
      unencode_nocheck els3 0 2 (fun _ => (1 : ZMod 3)) ≠ Sum.inr p :=
  c10_unencode_base els3 0 2 (fun _ => (1 : ZMod 3)) (Or.inr rfl)

theorem length_allVectors (m c : ℕ) : (allVectors m c).length = (c + 1) ^ m := by
  induction m with
  | zero => simp [allVectors]
  | succ m ih =>
    rw [allVectors, List.length_flatMap]
    have hmap : (List.map (List.length ∘ fun k => (allVectors m c).map fun v => k :: v)
        (List.range (c + 1))) = List.map (fun _ => (c + 1) ^ m) (List.range (c + 1)) := by
      apply List.map_congr_left
      intro k _
      simp [Function.comp, ih]
    rw [hmap, List.map_const', List.sum_replicate, List.length_range, smul_eq_mul,
      pow_succ, mul_comm]

theorem mem_allVectors_length (m c : ℕ) (v : List ℕ) (h : v ∈ allVectors m c) :
    v.length = m := by
  induction m generalizing v with
  | zero =>
    simp [allVectors] at h
    simp [h]
  | succ m ih =>
    rw [allVectors, List.mem_flatMap] at h
    obtain ⟨k, _, hv⟩ := h
    obtain ⟨w, hw, rfl⟩ := List.mem_map.mp hv
    simp [ih w hw]

theorem length_expTuples (m c : ℕ) : (expTuples m c).length = (c + 1) ^ m := by
  rw [expTuples, List.length_mergeSort, length_allVectors]

theorem mem_expTuples_length (m c : ℕ) (v : List ℕ) (h : v ∈ expTuples m c) :
    v.length = m :=
  mem_allVectors_length m c v ((List.mergeSort_perm (allVectors m c) _).mem_iff.mp h)

theorem prod_toIdx {F : Type} [Field F] (pt : ℕ → F) (v : List ℕ) (j0 : ℕ) :
    ((toIdx j0 v).map pt).prod =
    ((List.range v.length).map fun i => pt (j0 + i) ^ v.getD i 0).prod := by
  induction v generalizing j0 with
  | nil => simp [toIdx]
  | cons k v ih =>
    rw [toIdx, List.map_append, List.prod_append, List.map_replicate,
      List.prod_replicate, ih (j0 + 1)]
    rw [List.length_cons, List.range_succ_eq_map, List.map_cons, List.prod_cons,
      List.map_map]
    have hmap : List.map ((fun i => pt (j0 + i) ^ (k :: v).getD i 0) ∘ Nat.succ)
        (List.range v.length) =
        List.map (fun i => pt (j0 + 1 + i) ^ v.getD i 0) (List.range v.length) := by
      apply List.map_congr_left
      intro i _
      show pt (j0 + i.succ) ^ (k :: v).getD i.succ 0 = pt (j0 + 1 + i) ^ v.getD i 0
      rw [List.getD_cons_succ, show j0 + i.succ = j0 + 1 + i from by omega]
    rw [hmap]
    simp

theorem monomialEval_toIdx {F : Type} [Field F] (pt : ℕ → F) (v : List ℕ) :
    monomialEval pt (toIdx 0 v) =
    ((List.range v.length).map fun i => pt i ^ v.getD i 0).prod := by
  rw [monomialEval, ← List.prod_eq_foldl, prod_toIdx]
  refine congrArg List.prod (List.map_congr_left ?_)
  intro i _
  simp

theorem sum_choose_hockey (m r : ℕ) :
    (∑ i in Finset.range (r + 1), Nat.choose (m + i) i) = Nat.choose (m + r + 1) r := by
  induction r with
  | zero => simp
  | succ r ih =>
    rw [Finset.sum_range_succ, ih]
    have h1 : m + (r + 1) + 1 = (m + r + 1) + 1 := by omega
    rw [h1, Nat.choose_succ_succ', show m + (r + 1) = m + r + 1 from by omega]

theorem choose_le_pow (m r b : ℕ) (hb : r + 1 ≤ b) :
    Nat.choose (m + r) r ≤ b ^ m := by
  induction m generalizing r with
  | zero => simp
  | succ m ih =>
    have hsum : Nat.choose (m + 1 + r) r = ∑ i in Finset.range (r + 1),
        Nat.choose (m + i) i := by
      rw [sum_choose_hockey]
      congr 1
      omega
    rw [hsum]
    calc (∑ i in Finset.range (r + 1), Nat.choose (m + i) i)
        ≤ ∑ _i in Finset.range (r + 1), b ^ m := by
          apply Finset.sum_le_sum
          intro i hi
          rw [Finset.mem_range] at hi
          exact ih i (by omega)
      _ = (r + 1) * b ^ m := by rw [Finset.sum_const, Finset.card_range, smul_eq_mul]
      _ ≤ b * b ^ m := Nat.mul_le_mul_right _ hb
      _ = b ^ (m + 1) := by rw [pow_succ, mul_comm]

theorem sum_choose_le_two_pow (m r : ℕ) (h : r ≤ m) :
    (∑ i in Finset.range (r + 1), Nat.choose m i) ≤ 2 ^ m := by
  calc (∑ i in Finset.range (r + 1), Nat.choose m i)
      ≤ ∑ i in Finset.range (m + 1), Nat.choose m i := by
        apply Finset.sum_le_sum_of_subset
        apply Finset.range_subset.mpr
        omega
    _ = 2 ^ m := Nat.sum_range_choose m

/-- C2: for every valid code the generator matrix has `dimension` rows and
`q^m` columns, its entry at row `i`, column `t` is the product over `j` of the
`t`-th grid point's `j`-th coordinate raised to the `j`-th entry of the `i`-th
exponent tuple in enumerator order (an empty exponent multiset giving the empty
product `1`), and repeated calls return the same matrix — the `cached_method`
cache is modelled by the purity of the definition. -/
theorem c2_generator_matrix {F : Type} [Field F] [DecidableEq F] (els : List F)
    (r m dim : ℕ)
    (hvalid : (dim = Nat.choose (m + r) r ∧ r < els.length) ∨
      (els.length = 2 ∧ dim = ∑ i in Finset.range (r + 1), Nat.choose m i ∧ r ≤ m)) :
    (generatorMatrix els r m dim).length = dim ∧
    (∀ row ∈ generatorMatrix els r m dim, row.length = els.length ^ m) ∧
    (∀ i t, i < dim → t < els.length ^ m →
      ((generatorMatrix els r m dim).getD i []).getD t 0 =
      ((List.range m).map fun j =>
        gridPt els t j ^ ((expTuples m (min r (els.length - 1))).getD i []).getD j 0).prod) ∧
    generatorMatrix els r m dim = generatorMatrix els r m dim := by
  have hdim_le : dim ≤ (min r (els.length - 1) + 1) ^ m := by
    rcases hvalid with ⟨hdim, hr⟩ | ⟨hq, hdim, hrm⟩
    · have hc : min r (els.length - 1) = r := by omega
      rw [hc, hdim]
      exact choose_le_pow m r (r + 1) le_rfl
    · rw [hq]
      rcases Nat.eq_zero_or_pos r with rfl | hr
      · rw [hdim]
        simp
      · have hc : min r (2 - 1) = 1 := by omega
        rw [hc, hdim]
        exact sum_choose_le_two_pow m r hrm
  have htake : ((expTuples m (min r (els.length - 1))).take dim).length = dim := by
    rw [List.length_take, length_expTuples]
    omega
  refine ⟨?_, ?_, ?_, rfl⟩
  · rw [generatorMatrix, List.length_map, htake]
  · intro row hrow
    rw [generatorMatrix] at hrow
    obtain ⟨exp1, _, rfl⟩ := List.mem_map.mp hrow
    simp
  · intro i t hi ht
    have hilt : i < ((expTuples m (min r (els.length - 1))).take dim).length := by omega
    have hrowget : (generatorMatrix els r m dim).getD i [] =
        (List.range (els.length ^ m)).map fun t2 =>
          monomialEval (gridPt els t2)
            (toIdx 0 (((expTuples m (min r (els.length - 1))).take dim)[i])) := by
      rw [generatorMatrix, List.getD_eq_getElem _ _ (by simpa using hilt), List.getElem_map]
    rw [hrowget, List.getD_eq_getElem _ _ (by simpa using ht), List.getElem_map,
      List.getElem_range]
    have hexp : ((expTuples m (min r (els.length - 1))).take dim)[i] =
        (expTuples m (min r (els.length - 1))).getD i [] := by
      rw [List.getElem_take, List.getD_eq_getElem]
    have hlenm : (((expTuples m (min r (els.length - 1))).take dim)[i]).length = m := by
      apply mem_expTuples_length
      rw [hexp, List.getD_eq_getElem _ _ (by rw [length_expTuples]; omega)]
      exact List.getElem_mem _
    rw [monomialEval_toIdx, hlenm, hexp]

/-- Witness for `c2_generator_matrix`: the `GF(3)`, order-2, two-variable code
of the `generator_matrix` doctest, whose dimension is `C(4, 2) = 6`. -/
theorem c2_generator_matrix_witness :
    ((6 : ℕ) = Nat.choose (2 + 2) 2 ∧ 2 < els3.length) ∧
    (generatorMatrix els3 2 2 6).length = 6 ∧
    (∀ row ∈ generatorMatrix els3 2 2 6, row.length = els3.length ^ 2) ∧
    (∀ i t, i < 6 → t < els3.length ^ 2 →
      ((generatorMatrix els3 2 2 6).getD i []).getD t 0 =
      ((List.range 2).map fun j =>
        gridPt els3 t j ^ ((expTuples 2 (min 2 (els3.length - 1))).getD i []).getD j 0).prod) ∧
    generatorMatrix els3 2 2 6 = generatorMatrix els3 2 2 6 :=
  ⟨⟨by decide, by decide⟩,
    c2_generator_matrix els3 2 2 6 (Or.inl ⟨by decide, by decide⟩)⟩

theorem cast_choose_step (n k : ℕ) :
    (((n : ℚ) - k) * (Nat.choose n k : ℚ)) / ((k : ℚ) + 1) = (Nat.choose n (k + 1) : ℚ) := by
  rcases lt_or_ge k n with hk | hk
  · have hrec := Nat.choose_succ_right_eq n k
    have hcast : ((Nat.choose n (k + 1) * (k + 1) : ℕ) : ℚ) =
        ((Nat.choose n k * (n - k) : ℕ) : ℚ) := by exact_mod_cast congrArg (Nat.cast : ℕ → ℚ) hrec
    push_cast [Nat.cast_sub (le_of_lt hk)] at hcast
    have hk1 : ((k : ℚ) + 1) ≠ 0 := by positivity
    field_simp
    linarith [hcast]
  · rcases eq_or_lt_of_le hk with heq | hlt
    · subst heq
      have h0 : Nat.choose n (n + 1) = 0 := Nat.choose_eq_zero_of_lt (Nat.lt_succ_self n)
      simp [h0]
    · rw [Nat.choose_eq_zero_of_lt hlt, Nat.choose_eq_zero_of_lt (by omega)]
      simp

theorem binomialSum_loop (n k : ℕ) :
    (List.range k).foldl (fun (p : ℚ × ℚ) (i : ℕ) =>
      (((((n : ℚ) - (i : ℚ)) * p.2) / ((i : ℚ) + 1)) + p.1,
        (((n : ℚ) - (i : ℚ)) * p.2) / ((i : ℚ) + 1)))
      ((1 : ℚ), (1 : ℚ)) =
    (∑ i in Finset.range (k + 1), (Nat.choose n i : ℚ), (Nat.choose n k : ℚ)) := by
  induction k with
  | zero => simp
  | succ k ih =>
    rw [List.range_succ, List.foldl_append, ih, List.foldl_cons, List.foldl_nil]
    have hstep : (((n : ℚ) - k) * (Nat.choose n k : ℚ)) / ((k : ℚ) + 1) =
        (Nat.choose n (k + 1) : ℚ) := cast_choose_step n k
    rw [Finset.sum_range_succ (f := fun i => (Nat.choose n i : ℚ)) (n := k + 1)]
    refine Prod.ext ?_ ?_
    · show (((n : ℚ) - k) * (Nat.choose n k : ℚ)) / ((k : ℚ) + 1) +
        (∑ i in Finset.range (k + 1), (Nat.choose n i : ℚ)) = _
      rw [hstep]
      ring
    · exact hstep

/-- C3: for valid parameters the dimension formulas of the two constructors
hold and are bounded by the length `q^m`: the q-ary dimension is
`C(m + r, r) ≤ q^m` whenever `r < q`, and the iterative binary `_binomial_sum`
computes exactly `Σ_{i≤r} C(m, i)`, which is at most `2^m` whenever `r ≤ m`. -/
theorem c3_dimension_length (q r m : ℕ) :
    (r < q → qaryDimension r m ≤ rmLength q m ∧ qaryDimension r m = Nat.choose (m + r) r) ∧
    binaryDimension r m = (∑ i in Finset.range (r + 1), (Nat.choose m i : ℚ)) ∧
    (r ≤ m → binaryDimension r m ≤ ((rmLength 2 m : ℕ) : ℚ)) := by
  refine ⟨fun hr => ⟨choose_le_pow m r q hr, rfl⟩, ?_, fun hrm => ?_⟩
  · rw [binaryDimension, binomialSum, binomialSum_loop]
  · rw [binaryDimension, binomialSum, binomialSum_loop]
    show (∑ i in Finset.range (r + 1), (Nat.choose m i : ℚ)) ≤ _
    have h1 : (∑ i in Finset.range (r + 1), (Nat.choose m i : ℚ)) =
        ((∑ i in Finset.range (r + 1), Nat.choose m i : ℕ) : ℚ) := by push_cast; rfl
    rw [h1]
    have h2 := sum_choose_le_two_pow m r hrm
    have h3 : (rmLength 2 m : ℕ) = 2 ^ m := rfl
    rw [h3]
    exact_mod_cast h2

/-- Witness for `c3_dimension_length` at `q = 3`, `r = 2`, `m = 2`:
`C(4, 2) = 6 ≤ 9` and `_binomial_sum(2, 2) = 4 ≤ 4`. -/
theorem c3_dimension_length_witness :
    (2 < 3 ∧ qaryDimension 2 2 ≤ rmLength 3 2 ∧ qaryDimension 2 2 = Nat.choose (2 + 2) 2) ∧
    binaryDimension 2 2 = (∑ i in Finset.range (2 + 1), (Nat.choose 2 i : ℚ)) ∧
    (2 ≤ 2 ∧ binaryDimension 2 2 ≤ ((rmLength 2 2 : ℕ) : ℚ)) :=
  ⟨⟨by decide, (c3_dimension_length 3 2 2).1 (by decide)⟩,
    (c3_dimension_length 3 2 2).2.1,
    ⟨le_rfl, (c3_dimension_length 3 2 2).2.2 le_rfl⟩⟩

/-- Counterexample to C5 as stated: the constructors only check that `order`
and `num_of_var` are `Integer` instances, never their sign, so construction
with a negative order succeeds in both classes instead of failing. -/
theorem c5_validation_counterexample :
    binaryValidate (.int (-1)) (.int 4) = Except.ok (-1, 4) ∧
    qaryValidate 3 (.int (-1)) (.int 2) = Except.ok (-1, 2) :=
  ⟨rfl, rfl⟩

/-- C5 (amended): construction fails with the integer-parameter `ValueError`
iff `order` or `num_of_var` is not an `Integer` instance; non-negativity is not
enforced, so every pair of integers below the order bound is accepted,
negative values included. -/
theorem c5_integer_validation_amended (q : ℕ) (o mv : ℤ) :
    qaryValidate q .nonInt (.int mv) = .error .orderNotInteger ∧
    qaryValidate q .nonInt .nonInt = .error .orderNotInteger ∧
    qaryValidate q (.int o) .nonInt = .error .numVarsNotInteger ∧
    binaryValidate .nonInt (.int mv) = .error .orderNotInteger ∧
    binaryValidate .nonInt .nonInt = .error .orderNotInteger ∧
    binaryValidate (.int o) .nonInt = .error .numVarsNotInteger ∧
    (o < (q : ℤ) → qaryValidate q (.int o) (.int mv) = .ok (o, mv)) ∧
    (o ≤ mv → binaryValidate (.int o) (.int mv) = .ok (o, mv)) := by
  refine ⟨rfl, rfl, rfl, rfl, rfl, rfl, fun ho => ?_, fun ho => ?_⟩
  · rw [qaryValidate, if_neg (not_le.mpr ho)]
  · rw [binaryValidate, if_neg (not_lt.mpr ho)]

/-- Witness for `c5_integer_validation_amended` at `q = 3`, `o = -1`, `mv = 4`. -/
theorem c5_integer_validation_amended_witness :
    qaryValidate 3 .nonInt (.int 4) = .error .orderNotInteger ∧
    ((-1 : ℤ) < (3 : ℤ) ∧ qaryValidate 3 (.int (-1)) (.int 4) = .ok (-1, 4)) ∧
    ((-1 : ℤ) ≤ (4 : ℤ) ∧ binaryValidate (.int (-1)) (.int 4) = .ok (-1, 4)) :=
  ⟨(c5_integer_validation_amended 3 (-1) 4).1,
    ⟨by decide, (c5_integer_validation_amended 3 (-1) 4).2.2.2.2.2.2.1 (by decide)⟩,
    ⟨by decide, (c5_integer_validation_amended 3 (-1) 4).2.2.2.2.2.2.2 (by decide)⟩⟩

/-- C6: an integer-parameter q-ary construction fails with `OrderTooLarge` iff
`order ≥ q`, the binary one iff `order > num_vars`, and otherwise (the
integrality validations having passed) construction succeeds. -/
theorem c6_order_too_large (q : ℕ) (o mv : ℤ) :
    (qaryValidate q (.int o) (.int mv) = .error .orderTooLarge ↔ (q : ℤ) ≤ o) ∧
    (binaryValidate (.int o) (.int mv) = .error .orderTooLarge ↔ mv < o) ∧
    ((q : ℤ) ≤ o → qaryValidate q (.int o) (.int mv) = .error .orderTooLarge) ∧
    (o < (q : ℤ) → qaryValidate q (.int o) (.int mv) = .ok (o, mv)) ∧
    (mv < o → binaryValidate (.int o) (.int mv) = .error .orderTooLarge) ∧
    (o ≤ mv → binaryValidate (.int o) (.int mv) = .ok (o, mv)) := by
  rw [qaryValidate, binaryValidate]
  by_cases h1 : (q : ℤ) ≤ o
  · by_cases h2 : mv < o
    · rw [if_pos h1, if_pos h2]
      refine ⟨by simp [h1], by simp [h2], fun _ => rfl, fun hc => absurd hc (by omega),
        fun _ => rfl, fun hc => absurd hc (by omega)⟩
    · rw [if_pos h1, if_neg h2]
      refine ⟨by simp [h1], by simp [h2], fun _ => rfl, fun hc => absurd hc (by omega),
        fun hc => absurd hc (by omega), fun _ => rfl⟩
  · by_cases h2 : mv < o
    · rw [if_neg h1, if_pos h2]
      refine ⟨by simp [h1], by simp [h2], fun hc => absurd hc (by omega),
        fun _ => rfl, fun _ => rfl, fun hc => absurd hc (by omega)⟩
    · rw [if_neg h1, if_neg h2]
      refine ⟨by simp [h1], by simp [h2], fun hc => absurd hc (by omega),
        fun _ => rfl, fun hc => absurd hc (by omega), fun _ => rfl⟩

/-- Witness for `c6_order_too_large`: `q = 3`, `order = 4` fails with
`OrderTooLarge` as in the spec's negative scenario, and `order = 2` succeeds. -/
theorem c6_order_too_large_witness :
    qaryValidate 3 (.int 4) (.int 4) = .error .orderTooLarge ∧
    ((2 : ℤ) < (3 : ℤ) ∧ qaryValidate 3 (.int 2) (.int 4) = .ok (2, 4)) ∧
    ((5 : ℤ) > (4 : ℤ) ∧ binaryValidate (.int 5) (.int 4) = .error .orderTooLarge) :=
  ⟨(c6_order_too_large 3 4 4).1.mpr (by decide),
    ⟨by decide, (c6_order_too_large 3 2 4).2.2.2.1 (by decide)⟩,
    ⟨by decide, (c6_order_too_large 3 5 4).2.1.mpr (by decide)⟩⟩

/-- C7: `encode` fails with the wrong-domain `ValueError` exactly on
polynomials outside the declared domain (modelled by the variable count; the
base field is fixed by the embedding), fails with the degree `ValueError`
exactly when the total degree exceeds the order, and otherwise returns the
vector of the polynomial's values on the whole grid, of length `q^m`; a
polynomial of total degree exactly the order is accepted. -/
theorem c7_encode_checks {F : Type} [Field F] [DecidableEq F] (els : List F) (ord m : ℕ) :
    (∀ (mp : ℕ) (p : MPoly F mp), mp ≠ m →
      encodeChecked els ord m ⟨mp, p⟩ = .error .wrongDomain) ∧
    (∀ p : MPoly F m, encodeChecked els ord m ⟨m, p⟩ = encodeP els ord m p) ∧
    (∀ p : MPoly F m, totalDegP p > (ord : ℤ) →
      encodeP els ord m p = .error .degreeTooHigh) ∧
    (∀ p : MPoly F m, totalDegP p ≤ (ord : ℤ) →
      encodeP els ord m p = .ok (evalVec els m p) ∧
      (evalVec els m p).length = els.length ^ m) ∧
    (∀ p : MPoly F m, totalDegP p = (ord : ℤ) →
      encodeP els ord m p = .ok (evalVec els m p)) := by
  refine ⟨fun mp p hmp => ?_, fun p => ?_, fun p hdeg => ?_, fun p hdeg => ⟨?_, ?_⟩,
    fun p hdeg => ?_⟩
  · rw [encodeChecked, dif_neg hmp]
  · rw [encodeChecked, dif_pos rfl]
  · rw [encodeP, if_pos hdeg]
  · rw [encodeP, if_neg (not_lt.mpr hdeg)]
  · exact length_evalVec els m p
  · rw [encodeP, if_neg (not_lt.mpr (le_of_eq hdeg))]

/-- Witness for `c7_encode_checks`: the order-2 `GF(3)` encoder rejects a
univariate input as wrong-domain, rejects the doctest's too-high-degree
polynomial, and accepts the degree-2 doctest polynomial. -/
theorem c7_encode_checks_witness :
    encodeChecked els3 2 2 ⟨1, pUni⟩ = .error .wrongDomain ∧
    (totalDegP pDeg10 > (2 : ℤ) ∧
      encodeP els3 2 2 pDeg10 = .error .degreeTooHigh) ∧
    (totalDegP pC4 = (2 : ℤ) ∧ encodeP els3 2 2 pC4 = .ok (evalVec els3 2 pC4)) :=
  ⟨(c7_encode_checks els3 2 2).1 1 _ (by decide),
    ⟨by decide, (c7_encode_checks els3 2 2).2.2.1 _ (by decide)⟩,
    ⟨by decide, (c7_encode_checks els3 2 2).2.2.2.2 _ (by decide)⟩⟩

/-- Counterexample to C8 as stated: the parameters `q = 3`, `order = 2`,
`num_vars = 0` pass every constructor validation, yet `minimum_distance`
returns `(3 - 2) * 1 / 3 = 1/3`, which is not an integer — the division by `q`
is not exact because `length = q^0 = 1`. -/
theorem c8_min_distance_counterexample :
    qaryValidate 3 (.int 2) (.int 0) = Except.ok (2, 0) ∧
    qaryMinimumDistance 3 2 0 = 1 / 3 ∧
    (qaryMinimumDistance 3 2 0).den = 3 := by
  refine ⟨rfl, ?_, ?_⟩
  · rw [qaryMinimumDistance, rmLength]
    norm_num
  · with_unfolding_all rfl

theorem c8_min_distance_amended (q r m : ℕ) (hr : r < q) (hm : 1 ≤ m) :
    qaryMinimumDistance q r m = (((q - r) * q ^ (m - 1) : ℕ) : ℚ) ∧
    ∀ r2 m2 : ℕ, binaryMinimumDistance r2 m2 = 2 ^ (m2 - r2) := by
  refine ⟨?_, fun _ _ => rfl⟩
  have hq : 0 < q := by omega
  have hqQ : (q : ℚ) ≠ 0 := by positivity
  rw [qaryMinimumDistance, rmLength]
  have hqm : q ^ m = q * q ^ (m - 1) := by
    rw [← pow_succ']
    congr 1
    omega
  rw [hqm]
  have hsub : ((q : ℚ) - r) = ((q - r : ℕ) : ℚ) := by
    rw [Nat.cast_sub (le_of_lt hr)]
  rw [hsub]
  push_cast
  field_simp
  ring

/-- Witness for `c8_min_distance_amended`: the `GF(3)`, order-2, two-variable
code has minimum distance `(3 - 2) * 3 = 3`. -/
theorem c8_min_distance_amended_witness :
    (2 < 3 ∧ 1 ≤ 2) ∧ qaryMinimumDistance 3 2 2 = (((3 - 2) * 3 ^ (2 - 1) : ℕ) : ℚ) ∧
    binaryMinimumDistance 2 4 = 2 ^ (4 - 2) :=
  ⟨⟨by decide, by decide⟩, (c8_min_distance_amended 3 2 2 (by decide) (by decide)).1,
    (c8_min_distance_amended 3 2 2 (by decide) (by decide)).2 2 4⟩

/-- Counterexample to C9 as stated: a `QAryReedMullerCode` over the 2-element
field with order 1 and 2 variables (constructible, since `1 < 2`) and a
`BinaryReedMullerCode` with the same order and variable count agree on
cardinality, order and variable count, yet compare unequal, because each
`__eq__` first requires the other object to be an instance of its own class. -/
theorem c9_cross_class_counterexample :
    qaryValidate 2 (.int 1) (.int 2) = Except.ok (1, 2) ∧
    binaryValidate (.int 1) (.int 2) = Except.ok (1, 2) ∧
    rmBaseFieldCard (.qary 2 1 2) = rmBaseFieldCard (.binary 1 2) ∧
    rmOrder (.qary 2 1 2) = rmOrder (.binary 1 2) ∧
    rmNumVars (.qary 2 1 2) = rmNumVars (.binary 1 2) ∧
    rmEq (.qary 2 1 2) (.binary 1 2) = false :=
  ⟨rfl, rfl, rfl, rfl, rfl, rfl⟩

/-- C9 (amended): two constructed codes compare equal iff they were built by
the same class and agree on base-field cardinality, order and variable count;
field identity and variable naming are ignored, but cross-class comparisons
are always unequal even with matching parameters. -/
theorem c9_code_equality_amended (c1 c2 : RMCode) :
    rmEq c1 c2 = true ↔ (sameClass c1 c2 = true ∧
      rmBaseFieldCard c1 = rmBaseFieldCard c2 ∧ rmOrder c1 = rmOrder c2 ∧
      rmNumVars c1 = rmNumVars c2) := by
  cases c1 <;> cases c2 <;>
    simp [rmEq, sameClass, rmBaseFieldCard, rmOrder, rmNumVars, Bool.and_eq_true,
      and_assoc]

end Thms

end RM
